import Mathlib

/-!
Shallow embedding of the BanditPAM k-medoids solver
(src/src/kmedoids_algorithm.cpp, src/headers/kmedoids_algorithm.hpp) and
proofs about its loss-name parsing, algorithm dispatch, loss functions and
the BUILD/SWAP helper kernels.
-/

namespace km

/-! ## Loss-name parsing (km::KMedoids::setLossFn) and algorithm dispatch
(km::KMedoids::checkAlgorithm), modelled at the level of character lists. -/

/-- Character-level model of a C++ std::string. -/
abbrev Chars := List Char

/-- Model of std::regex_match(loss, std::regex("L\\d*")): the whole string is
the letter L followed by zero or more decimal digits. -/
def matchLDigits : Chars → Bool
  | 'L' :: rest => rest.all Char.isDigit
  | _ => false

/-- Model of C atoi applied to a string whose first character is a decimal
digit: the value of the maximal leading run of decimal digits. -/
def atoiDigits (s : Chars) : Nat :=
  (s.takeWhile Char.isDigit).foldl (fun n c => n * 10 + (c.toNat - 48)) 0

/-- The loss function selected by km::KMedoids::setLossFn: the lossFn member
together with the lp member in the LP case. -/
inductive LossChoice
  | manhattan
  | cos
  | linf
  | lpNorm (p : Nat)
  deriving DecidableEq, Repr

/-- Observable outcome of km::KMedoids::setLossFn. Either a loss function is
selected and the function returns normally; or the thrown
std::invalid_argument("error: unrecognized loss function") is caught by the
handler inside setLossFn itself, printed to stdout, and the function returns
normally without selecting anything; or loss.at(0) on an empty stripped
string throws std::out_of_range, which the invalid_argument handler does not
catch. -/
inductive SetLossOutcome
  | selected (f : LossChoice)
  | caughtInvalidArgument
  | uncaughtOutOfRange
  deriving DecidableEq, Repr

/-- Model of km::KMedoids::setLossFn: strip the leading character when the
name matches the regex L\d*, then dispatch on the stripped name exactly as
the chain of comparisons in the source does. -/
def setLossFn (loss : Chars) : SetLossOutcome :=
  let l := if matchLDigits loss then loss.drop 1 else loss
  if l = ("manhattan").toList then .selected .manhattan
  else if l = ("cos").toList then .selected .cos
  else if l = ("inf").toList then .selected .linf
  else
    match l with
    | [] => .uncaughtOutOfRange
    | c :: _ => if c.isDigit then .selected (.lpNorm (atoiDigits l)) else .caughtInvalidArgument

/-- The fit function selected by km::KMedoids::checkAlgorithm. -/
inductive FitFn
  | fitBpam
  | fitNaive
  deriving DecidableEq, Repr

/-- Model of km::KMedoids::checkAlgorithm, called by the constructor and again
by fit: selects the fit function, or throws the string literal
"unrecognized algorithm", which no handler catches. -/
def checkAlgorithm (algorithm : String) : Except String FitFn :=
  if algorithm = "BanditPAM" then .ok .fitBpam
  else if algorithm = "naive" then .ok .fitNaive
  else .error "unrecognized algorithm"

/-- C9: every algorithm name outside BanditPAM and naive makes checkAlgorithm
(run by the constructor, and re-run by fit) produce the
unrecognized-algorithm error, which propagates to the caller uncaught; the
two valid names produce no error and select the corresponding fit function. -/
theorem checkAlgorithm_spec (s : String) (h1 : s ≠ "BanditPAM") (h2 : s ≠ "naive") :
    checkAlgorithm s = .error "unrecognized algorithm"
      ∧ checkAlgorithm "BanditPAM" = .ok .fitBpam
      ∧ checkAlgorithm "naive" = .ok .fitNaive := by
  refine ⟨?_, rfl, rfl⟩
  simp [checkAlgorithm, h1, h2]

theorem checkAlgorithm_spec_witness :
    ("PAM" ≠ "BanditPAM" ∧ "PAM" ≠ "naive")
      ∧ (checkAlgorithm "PAM" = .error "unrecognized algorithm"
          ∧ checkAlgorithm "BanditPAM" = .ok .fitBpam
          ∧ checkAlgorithm "naive" = .ok .fitNaive) :=
  ⟨⟨by decide, by decide⟩, checkAlgorithm_spec "PAM" (by decide) (by decide)⟩

/-- C2: the loss name "L-1" raises the unrecognized-loss invalid_argument, but
the handler inside setLossFn catches and prints it and setLossFn returns
normally, so the error never reaches the caller of fit and the fit is not
aborted; the six valid names "L2", "2", "manhattan", "cos", "inf", "L7"
select the corresponding loss functions without error. -/
theorem setLossFn_eval :
    setLossFn (("L-1").toList) = .caughtInvalidArgument
      ∧ setLossFn (("L2").toList) = .selected (.lpNorm 2)
      ∧ setLossFn (("2").toList) = .selected (.lpNorm 2)
      ∧ setLossFn (("manhattan").toList) = .selected .manhattan
      ∧ setLossFn (("cos").toList) = .selected .cos
      ∧ setLossFn (("inf").toList) = .selected .linf
      ∧ setLossFn (("L7").toList) = .selected (.lpNorm 7) := by
  decide

/-- C10 counterexample: the bare name "L" is accepted by the regex L\d* with
zero digits, the stripped string is empty, and the subsequent loss.at(0)
access is out of bounds (std::out_of_range escapes the invalid_argument
handler). -/
theorem setLossFn_bare_L :
    matchLDigits (("L").toList) = true
      ∧ ("L").toList.drop 1 = []
      ∧ setLossFn (("L").toList) = .uncaughtOutOfRange := by
  decide

/-- C10 amended: for every loss name accepted by the regex L\d* that contains
at least one digit (length at least two), the stripped string is non-empty,
so the loss.at(0) access is in bounds and no out-of-range throw occurs. -/
theorem setLossFn_inbounds (s : Chars) (hm : matchLDigits s = true)
    (hlen : 2 ≤ s.length) :
    0 < (s.drop 1).length ∧ setLossFn s ≠ .uncaughtOutOfRange := by
  have hdrop : 0 < (s.drop 1).length := by
    rw [List.length_drop]; omega
  refine ⟨hdrop, ?_⟩
  rcases hc : s.drop 1 with _ | ⟨c, rest⟩
  · rw [hc] at hdrop; simp at hdrop
  · simp only [setLossFn, hm, if_true, hc]
    split_ifs <;> simp

theorem setLossFn_inbounds_witness :
    (matchLDigits (("L2").toList) = true ∧ 2 ≤ ("L2").toList.length)
      ∧ (0 < (("L2").toList.drop 1).length
          ∧ setLossFn (("L2").toList) ≠ .uncaughtOutOfRange) :=
  ⟨by decide, setLossFn_inbounds (("L2").toList) (by decide) (by decide)⟩

/-! ## Loss functions over the reals (km::KMedoids::LP, cos, manhattan, LINF).
A data matrix with d rows is modelled as a function X : Nat → Nat → ℝ from
(row, column) to entry; column i is data point i. -/

/-- Model of km::KMedoids::LP: arma::norm(data.col(i) - data.col(j), lp), the
lp-norm (sum over rows of |entry| ^ lp) ^ (1 / lp). -/
noncomputable def LP (d : Nat) (X : Nat → Nat → ℝ) (lp : Nat) (i j : Nat) : ℝ :=
  (∑ r ∈ Finset.range d, |X r i - X r j| ^ lp) ^ ((1 : ℝ) / lp)

/-- Model of km::KMedoids::cos: arma::dot(x, y) / (arma::norm(x) * arma::norm(y))
for columns x, y — the raw cosine similarity, with no "1 minus". -/
noncomputable def cos (d : Nat) (X : Nat → Nat → ℝ) (i j : Nat) : ℝ :=
  (∑ r ∈ Finset.range d, X r i * X r j) /
    (Real.sqrt (∑ r ∈ Finset.range d, X r i ^ 2) *
      Real.sqrt (∑ r ∈ Finset.range d, X r j ^ 2))

/-- Model of km::KMedoids::manhattan: arma::accu(arma::abs(col_i - col_j)). -/
noncomputable def manhattan (d : Nat) (X : Nat → Nat → ℝ) (i j : Nat) : ℝ :=
  ∑ r ∈ Finset.range d, |X r i - X r j|

/-- Model of km::KMedoids::LINF: arma::max(arma::abs(col_i - col_j)). The fold
over the d rows starts at 0, which for d ≥ 1 (arma::max requires a non-empty
vector) equals the true maximum because every |entry| is non-negative. -/
noncomputable def LINF (d : Nat) (X : Nat → Nat → ℝ) (i j : Nat) : ℝ :=
  (List.range d).foldr (fun r m => max |X r i - X r j| m) 0

/-- C8: for every data matrix and every pair of column indices, the manhattan
loss equals the LP loss with p = 1. -/
theorem manhattan_eq_LP_one (d : Nat) (X : Nat → Nat → ℝ) (i j : Nat) :
    manhattan d X i j = LP d X 1 i j := by
  simp [manhattan, LP, Real.rpow_one]

/-- C1: failing input for the cosine sign. With d = 1 and columns 0 and 1 both
equal to the vector (1), the source cosine function returns the raw
similarity 1, which differs from the claimed dissimilarity
1 - (x.y)/(normx * normy) = 0 at the same input. -/
theorem cos_raw_similarity_eval :
    cos 1 (fun _ _ => (1 : ℝ)) 0 1 = 1
      ∧ cos 1 (fun _ _ => (1 : ℝ)) 0 1 ≠ 1 - cos 1 (fun _ _ => (1 : ℝ)) 0 1 := by
  have h : cos 1 (fun _ _ => (1 : ℝ)) 0 1 = 1 := by
    norm_num [cos, Real.sqrt_one]
  refine ⟨h, ?_⟩
  rw [h]; norm_num

/-- Helper: a fold of max over zeros stays zero. -/
theorem foldr_max_zero (l : List Nat) :
    l.foldr (fun _ m => max (0 : ℝ) m) 0 = 0 := by
  induction l with
  | nil => rfl
  | cons a l ih => simp [ih]

/-- C7: under the cosine loss as implemented, the self-distance of the unit
column (1) is the raw similarity 1 rather than 0 (failing input for the
claim); for the non-cosine losses, the self-distance is 0 and the distance
is symmetric, as claimed. -/
theorem dist_self_and_symm (d : Nat) (X : Nat → Nat → ℝ) (i j : Nat) (p : Nat)
    (hp : 1 ≤ p) :
    cos 1 (fun _ _ => (1 : ℝ)) 0 0 = 1
      ∧ manhattan d X i i = 0
      ∧ LINF d X i i = 0
      ∧ LP d X p i i = 0
      ∧ manhattan d X i j = manhattan d X j i
      ∧ LINF d X i j = LINF d X j i
      ∧ LP d X p i j = LP d X p j i := by
  have habs : ∀ r, |X r i - X r j| = |X r j - X r i| := fun r => abs_sub_comm _ _
  refine ⟨?_, ?_, ?_, ?_, ?_, ?_, ?_⟩
  · norm_num [cos, Real.sqrt_one]
  · simp [manhattan]
  · simp only [LINF, sub_self, abs_zero]
    exact foldr_max_zero _
  · have hpow : ∀ r : Nat, |X r i - X r i| ^ p = 0 := by
      intro r
      rw [sub_self, abs_zero]
      exact zero_pow (by omega)
    have hexp : (1 : ℝ) / p ≠ 0 := by
      have : (0 : ℝ) < p := by exact_mod_cast Nat.lt_of_lt_of_le Nat.zero_lt_one hp
      positivity
    simp only [LP, hpow, Finset.sum_const_zero]
    exact Real.zero_rpow hexp
  · simp only [manhattan, habs]
  · simp only [LINF, habs]
  · simp only [LP, habs]

theorem dist_self_and_symm_witness :
    1 ≤ 1
      ∧ (cos 1 (fun _ _ => (1 : ℝ)) 0 0 = 1
          ∧ manhattan 1 (fun _ _ => (1 : ℝ)) 0 0 = 0
          ∧ LINF 1 (fun _ _ => (1 : ℝ)) 0 0 = 0
          ∧ LP 1 (fun _ _ => (1 : ℝ)) 1 0 0 = 0
          ∧ manhattan 1 (fun _ _ => (1 : ℝ)) 0 0 = manhattan 1 (fun _ _ => (1 : ℝ)) 0 0
          ∧ LINF 1 (fun _ _ => (1 : ℝ)) 0 0 = LINF 1 (fun _ _ => (1 : ℝ)) 0 0
          ∧ LP 1 (fun _ _ => (1 : ℝ)) 1 0 0 = LP 1 (fun _ _ => (1 : ℝ)) 1 0 0) :=
  ⟨le_refl 1, dist_self_and_symm 1 (fun _ _ => (1 : ℝ)) 0 0 1 (le_refl 1)⟩

/-! ## km::KMedoids::calc_best_distances_swap. The loss function is abstracted
as dist : Nat → Nat → α over a linear order, matching the indirect call
through the lossFn member; best and second distances live in WithTop α,
modelling the initialization of the C++ doubles to +infinity. -/

/-- Per-point loop state of calc_best_distances_swap: the running best and
second-best distances (initialized to infinity) and the running assignment. -/
structure DistState (α : Type*) where
  best : WithTop α
  second : WithTop α
  assignment : Nat

section CalcBest

variable {α : Type*} [LinearOrder α]

/-- One iteration of the medoid loop of calc_best_distances_swap, with k the
loop index and cost the distance from medoid_indices(k) to the point. -/
def cbdsStep (s : DistState α) (k : Nat) (cost : α) : DistState α :=
  if (cost : WithTop α) < s.best then ⟨cost, s.best, k⟩
  else if (cost : WithTop α) < s.second then ⟨s.best, cost, s.assignment⟩
  else s

/-- The medoid loop of calc_best_distances_swap over the list of per-medoid
costs, with k the running loop counter. -/
def goCosts : List α → Nat → DistState α → DistState α
  | [], _, s => s
  | c :: l, k, s => goCosts l (k + 1) (cbdsStep s k c)

/-- Model of km::KMedoids::calc_best_distances_swap at one point i: loop over
the medoid positions k with cost dist(medoid_indices(k), i), starting from
best = second = infinity. -/
def calc_best_distances_swap (dist : Nat → Nat → α) (M : List Nat) (i : Nat) :
    DistState α :=
  goCosts (M.map fun m => dist m i) 0 ⟨⊤, ⊤, 0⟩

/-- The two smallest values (with multiplicity) of a list, computed
recursively: the first component is the minimum, the second the
second-smallest. -/
def twoSmallest : List α → WithTop α × WithTop α
  | [] => (⊤, ⊤)
  | c :: l =>
    (min (c : WithTop α) (twoSmallest l).1,
      min (max (c : WithTop α) (twoSmallest l).1) (twoSmallest l).2)

/-- The second-smallest element of a list, counting duplicates: the element at
position 1 of the list sorted ascending (infinity when the list has fewer
than two elements). -/
def secondSmallest (l : List α) : WithTop α :=
  match l.insertionSort (· ≤ ·) with
  | _ :: b :: _ => (b : WithTop α)
  | _ => ⊤

/-- The first (lowest) index of a minimal element of a list. -/
def firstMinIdx : List α → Nat
  | [] => 0
  | c :: l => if (c : WithTop α) ≤ (twoSmallest l).1 then 0 else firstMinIdx l + 1

theorem twoSmallest_nil : twoSmallest ([] : List α) = (⊤, ⊤) := rfl

theorem twoSmallest_cons (c : α) (l : List α) :
    twoSmallest (c :: l)
      = (min (c : WithTop α) (twoSmallest l).1,
          min (max (c : WithTop α) (twoSmallest l).1) (twoSmallest l).2) := rfl

theorem twoSmallest_fst_cons (c : α) (l : List α) :
    (twoSmallest (c :: l)).1 = min (c : WithTop α) (twoSmallest l).1 := rfl

theorem twoSmallest_snd_cons (c : α) (l : List α) :
    (twoSmallest (c :: l)).2
      = min (max (c : WithTop α) (twoSmallest l).1) (twoSmallest l).2 := rfl

theorem goCosts_nil (k : Nat) (s : DistState α) : goCosts ([] : List α) k s = s := rfl

theorem goCosts_cons (c : α) (l : List α) (k : Nat) (s : DistState α) :
    goCosts (c :: l) k s = goCosts l (k + 1) (cbdsStep s k c) := rfl

/-- The median-of-three identity used to commute insertions into a running
two-smallest tracker. -/
theorem med3 {γ : Type*} [LinearOrder γ] (x y z : γ) :
    min (max x y) (max (min x y) z) = min (max x z) (max (min x z) y) := by
  have key : ∀ a b c : γ,
      min (max a b) (max (min a b) c) = (a ⊓ b) ⊔ ((a ⊓ c) ⊔ (b ⊓ c)) := by
    intro a b c
    rw [inf_sup_left, inf_eq_right.mpr (le_trans inf_le_left le_sup_left), inf_sup_right]
  rw [key, key, inf_comm z y, sup_left_comm]

/-- Inserting a new cost into a two-smallest tracker commutes with merging in
the two smallest values of a tail. -/
theorem merge_step {γ : Type*} [LinearOrder γ] (b s2 B S c : γ) :
    min (min s2 (max c b)) (min S (max (min c b) B))
      = min s2 (min (min (max c B) S) (max b (min c B))) := by
  rw [min_assoc]
  congr 1
  rw [min_left_comm, med3 c b B, min_left_comm S (max c B), max_comm (min c B) b]
  rw [min_assoc]

theorem cbdsStep_best (s : DistState α) (k : Nat) (c : α) :
    (cbdsStep s k c).best = min (c : WithTop α) s.best := by
  unfold cbdsStep
  split_ifs with h1 h2
  · exact (min_eq_left h1.le).symm
  · exact (min_eq_right (not_lt.mp h1)).symm
  · exact (min_eq_right (not_lt.mp h1)).symm

theorem cbdsStep_second (s : DistState α) (k : Nat) (c : α)
    (hbs : s.best ≤ s.second) :
    (cbdsStep s k c).second = min s.second (max (c : WithTop α) s.best) := by
  unfold cbdsStep
  split_ifs with h1 h2
  · rw [max_eq_right h1.le, min_eq_right hbs]
  · rw [max_eq_left (not_lt.mp h1), min_eq_right h2.le]
  · rw [max_eq_left (not_lt.mp h1), min_eq_left (not_lt.mp h2)]

theorem cbdsStep_assignment (s : DistState α) (k : Nat) (c : α) :
    (cbdsStep s k c).assignment
      = if (c : WithTop α) < s.best then k else s.assignment := by
  unfold cbdsStep
  split_ifs <;> rfl

theorem cbdsStep_le (s : DistState α) (k : Nat) (c : α) (hbs : s.best ≤ s.second) :
    (cbdsStep s k c).best ≤ (cbdsStep s k c).second := by
  rw [cbdsStep_best, cbdsStep_second s k c hbs]
  exact le_min (le_trans (min_le_right _ _) hbs)
    (le_trans (min_le_left _ _) (le_max_left _ _))

theorem goCosts_best (l : List α) :
    ∀ (k : Nat) (s : DistState α),
      (goCosts l k s).best = min s.best (twoSmallest l).1 := by
  induction l with
  | nil =>
    intro k s
    rw [goCosts_nil, twoSmallest_nil]
    exact (min_eq_left le_top).symm
  | cons c l ih =>
    intro k s
    rw [goCosts_cons, ih, cbdsStep_best, twoSmallest_fst_cons, min_assoc, min_left_comm]

theorem goCosts_second (l : List α) :
    ∀ (k : Nat) (s : DistState α), s.best ≤ s.second →
      (goCosts l k s).second
        = min s.second (min (twoSmallest l).2 (max s.best (twoSmallest l).1)) := by
  induction l with
  | nil =>
    intro k s _
    rw [goCosts_nil, twoSmallest_nil]
    rw [max_eq_right le_top, min_eq_right le_top, min_eq_left le_top]
  | cons c l ih =>
    intro k s hbs
    rw [goCosts_cons, ih (k + 1) (cbdsStep s k c) (cbdsStep_le s k c hbs)]
    rw [cbdsStep_second s k c hbs, cbdsStep_best]
    rw [twoSmallest_snd_cons, twoSmallest_fst_cons]
    exact merge_step s.best s.second (twoSmallest l).1 (twoSmallest l).2 (c : WithTop α)

theorem goCosts_assignment (l : List α) :
    ∀ (k : Nat) (s : DistState α),
      (goCosts l k s).assignment
        = if (twoSmallest l).1 < s.best then k + firstMinIdx l else s.assignment := by
  induction l with
  | nil =>
    intro k s
    rw [goCosts_nil, twoSmallest_nil]
    rw [if_neg not_top_lt]
  | cons c l ih =>
    intro k s
    rw [goCosts_cons, ih, cbdsStep_best, cbdsStep_assignment]
    rw [twoSmallest_fst_cons]
    by_cases h1 : (c : WithTop α) ≤ (twoSmallest l).1
    · rw [min_eq_left h1]
      simp only [firstMinIdx, if_pos h1]
      rw [if_neg (fun h => absurd (lt_min_iff.mp h).1 (not_lt.mpr h1))]
      simp
    · have hlt : (twoSmallest l).1 < (c : WithTop α) := not_le.mp h1
      rw [min_eq_right hlt.le]
      simp only [firstMinIdx, if_neg h1]
      by_cases h3 : (twoSmallest l).1 < s.best
      · rw [if_pos (lt_min_iff.mpr ⟨hlt, h3⟩), if_pos h3]
        omega
      · rw [if_neg (fun h => h3 (lt_min_iff.mp h).2), if_neg h3,
          if_neg (fun hc => h3 (hlt.trans hc))]

theorem twoSmallest_fst_eq_minimum (l : List α) :
    (twoSmallest l).1 = l.minimum := by
  induction l with
  | nil => rw [twoSmallest_nil, List.minimum_nil]
  | cons c l ih => rw [twoSmallest_fst_cons, List.minimum_cons, ih]

theorem twoSmallest_fst_le_snd (l : List α) :
    (twoSmallest l).1 ≤ (twoSmallest l).2 := by
  induction l with
  | nil => exact le_refl ⊤
  | cons c l ih =>
    rw [twoSmallest_fst_cons, twoSmallest_snd_cons]
    exact le_min (le_trans (min_le_left _ _) (le_max_left _ _))
      (le_trans (min_le_right _ _) ih)

theorem le_twoSmallest_of_forall (l : List α) (c : α) (h : ∀ x ∈ l, c ≤ x) :
    (c : WithTop α) ≤ (twoSmallest l).1 ∧ (c : WithTop α) ≤ (twoSmallest l).2 := by
  induction l with
  | nil => exact ⟨le_top, le_top⟩
  | cons x l ih =>
    have hx : (c : WithTop α) ≤ (x : WithTop α) :=
      WithTop.coe_le_coe.mpr (h x (List.mem_cons_self x l))
    have ih' := ih fun y hy => h y (List.mem_cons_of_mem x hy)
    refine ⟨?_, ?_⟩
    · rw [twoSmallest_fst_cons]
      exact le_min hx ih'.1
    · rw [twoSmallest_snd_cons]
      exact le_min (le_trans hx (le_max_left _ _)) ih'.2

theorem twoSmallest_fst_lt_top (l : List α) (h : l ≠ []) :
    (twoSmallest l).1 < ⊤ := by
  match l with
  | c :: l =>
    rw [twoSmallest_fst_cons]
    exact lt_of_le_of_lt (min_le_left _ _) (WithTop.coe_lt_top c)

theorem twoSmallest_snd_cons2 (x y : α) (l : List α) :
    (twoSmallest (x :: y :: l)).2
      = min (min (max (x : WithTop α) (y : WithTop α))
          (max (min (x : WithTop α) (y : WithTop α)) (twoSmallest l).1))
          (twoSmallest l).2 := by
  rw [twoSmallest_snd_cons, twoSmallest_fst_cons, twoSmallest_snd_cons]
  rw [← min_assoc]
  congr 1
  rw [min_comm, max_comm (x : WithTop α) (min (y : WithTop α) (twoSmallest l).1)]
  rw [med3]
  rw [max_comm (y : WithTop α) (x : WithTop α), min_comm (y : WithTop α) (x : WithTop α)]

theorem twoSmallest_swap (a b : α) (l : List α) :
    twoSmallest (a :: b :: l) = twoSmallest (b :: a :: l) := by
  refine Prod.ext_iff.mpr ⟨?_, ?_⟩
  · rw [twoSmallest_fst_cons, twoSmallest_fst_cons, twoSmallest_fst_cons,
      twoSmallest_fst_cons, min_left_comm]
  · rw [twoSmallest_snd_cons2, twoSmallest_snd_cons2,
      max_comm (a : WithTop α) (b : WithTop α), min_comm (a : WithTop α) (b : WithTop α)]

theorem twoSmallest_perm {l l' : List α} (h : l.Perm l') :
    twoSmallest l = twoSmallest l' := by
  induction h with
  | nil => rfl
  | cons x h ih => rw [twoSmallest_cons, twoSmallest_cons, ih]
  | swap x y l => exact twoSmallest_swap y x l
  | trans h1 h2 ih1 ih2 => rw [ih1, ih2]

theorem twoSmallest_sorted_cons2 (a b : α) (t : List α)
    (hs : (a :: b :: t).Sorted (· ≤ ·)) :
    twoSmallest (a :: b :: t) = ((a : WithTop α), (b : WithTop α)) := by
  obtain ⟨ha, hs'⟩ := List.sorted_cons.mp hs
  obtain ⟨hb, _⟩ := List.sorted_cons.mp hs'
  have hab : (a : WithTop α) ≤ (b : WithTop α) :=
    WithTop.coe_le_coe.mpr (ha b (List.mem_cons_self b t))
  have hbt := le_twoSmallest_of_forall t b hb
  have h1 : (twoSmallest (b :: t)).1 = (b : WithTop α) := by
    rw [twoSmallest_fst_cons]; exact min_eq_left hbt.1
  have h2 : (b : WithTop α) ≤ (twoSmallest (b :: t)).2 := by
    rw [twoSmallest_snd_cons]
    exact le_min (le_max_left _ _) hbt.2
  refine Prod.ext_iff.mpr ⟨?_, ?_⟩
  · rw [twoSmallest_fst_cons, h1]
    exact min_eq_left hab
  · rw [twoSmallest_snd_cons, h1, max_eq_right hab]
    exact min_eq_left h2

theorem twoSmallest_snd_eq_secondSmallest (l : List α) :
    (twoSmallest l).2 = secondSmallest l := by
  have hperm := List.perm_insertionSort (· ≤ ·) l
  have hsort := List.sorted_insertionSort (· ≤ ·) l
  rw [← twoSmallest_perm hperm]
  unfold secondSmallest
  rcases hsl : l.insertionSort (· ≤ ·) with _ | ⟨a, _ | ⟨b, t⟩⟩
  · rfl
  · simp [twoSmallest]
  · rw [hsl] at hsort
    rw [twoSmallest_sorted_cons2 a b t hsort]

theorem firstMinIdx_spec (l : List α) (h : l ≠ []) :
    ∃ hlt : firstMinIdx l < l.length,
      (l.get ⟨firstMinIdx l, hlt⟩ : WithTop α) = (twoSmallest l).1 := by
  induction l with
  | nil => exact absurd rfl h
  | cons c l ih =>
    by_cases h1 : (c : WithTop α) ≤ (twoSmallest l).1
    · simp only [firstMinIdx, if_pos h1]
      refine ⟨Nat.succ_pos _, ?_⟩
      rw [twoSmallest_fst_cons, min_eq_left h1]
      rfl
    · have hl : l ≠ [] := by
        rintro rfl
        exact h1 le_top
      obtain ⟨hlt, hget⟩ := ih hl
      simp only [firstMinIdx, if_neg h1]
      refine ⟨Nat.succ_lt_succ hlt, ?_⟩
      rw [twoSmallest_fst_cons, min_eq_right (not_le.mp h1).le]
      exact hget

theorem firstMinIdx_least (l : List α) :
    ∀ j, j < firstMinIdx l → ∀ hj : j < l.length,
      (twoSmallest l).1 < (l.get ⟨j, hj⟩ : WithTop α) := by
  induction l with
  | nil =>
    intro j hjf hj
    exact absurd hj (by simp)
  | cons c l ih =>
    intro j hjf hj
    by_cases h1 : (c : WithTop α) ≤ (twoSmallest l).1
    · simp only [firstMinIdx, if_pos h1] at hjf
      omega
    · simp only [firstMinIdx, if_neg h1] at hjf
      have hlt : (twoSmallest l).1 < (c : WithTop α) := not_le.mp h1
      rw [twoSmallest_fst_cons, min_eq_right hlt.le]
      cases j with
      | zero => exact hlt
      | succ j' => exact ih j' (by omega) (by simpa using hj)

/-- C3: after calc_best_distances_swap, for every point i and non-empty medoid
list M with per-medoid costs dist(M(k), i): the best distance is the minimum
cost; the second distance is the second-smallest cost counting duplicates
(position 1 of the sorted cost list); best is at most second; the assignment
is the position of a minimal cost and every strictly earlier position has a
strictly larger cost (lowest position on ties); and with at least two medoids
both distances are finite. -/
theorem calc_best_distances_swap_spec {α : Type*} [LinearOrder α]
    (dist : Nat → Nat → α) (M : List Nat) (i : Nat) (hM : M ≠ []) :
    (calc_best_distances_swap dist M i).best = (M.map fun m => dist m i).minimum
    ∧ (calc_best_distances_swap dist M i).second
        = secondSmallest (M.map fun m => dist m i)
    ∧ (calc_best_distances_swap dist M i).best
        ≤ (calc_best_distances_swap dist M i).second
    ∧ (∃ hlt : (calc_best_distances_swap dist M i).assignment
          < (M.map fun m => dist m i).length,
        (((M.map fun m => dist m i).get
            ⟨(calc_best_distances_swap dist M i).assignment, hlt⟩ : α) : WithTop α)
          = (M.map fun m => dist m i).minimum
        ∧ ∀ j (hj : j < (M.map fun m => dist m i).length),
            j < (calc_best_distances_swap dist M i).assignment →
            (M.map fun m => dist m i).minimum
              < (((M.map fun m => dist m i).get ⟨j, hj⟩ : α) : WithTop α))
    ∧ (2 ≤ M.length →
        (calc_best_distances_swap dist M i).best ≠ ⊤
        ∧ (calc_best_distances_swap dist M i).second ≠ ⊤) := by
  have hcosts : (M.map fun m => dist m i) ≠ [] := by
    simpa using hM
  have hbest : (calc_best_distances_swap dist M i).best
      = (twoSmallest (M.map fun m => dist m i)).1 := by
    unfold calc_best_distances_swap
    rw [goCosts_best]
    exact min_eq_right le_top
  have hsecond : (calc_best_distances_swap dist M i).second
      = (twoSmallest (M.map fun m => dist m i)).2 := by
    unfold calc_best_distances_swap
    rw [goCosts_second _ _ _ (le_refl ⊤)]
    rw [max_eq_left le_top, min_eq_left le_top, min_eq_right le_top]
  have hassign : (calc_best_distances_swap dist M i).assignment
      = firstMinIdx (M.map fun m => dist m i) := by
    unfold calc_best_distances_swap
    rw [goCosts_assignment]
    rw [if_pos (twoSmallest_fst_lt_top _ hcosts)]
    exact Nat.zero_add _
  refine ⟨?_, ?_, ?_, ?_, ?_⟩
  · rw [hbest, twoSmallest_fst_eq_minimum]
  · rw [hsecond, twoSmallest_snd_eq_secondSmallest]
  · rw [hbest, hsecond]
    exact twoSmallest_fst_le_snd _
  · obtain ⟨hlt, hget⟩ := firstMinIdx_spec (M.map fun m => dist m i) hcosts
    rw [hassign]
    refine ⟨hlt, ?_, ?_⟩
    · rw [hget, twoSmallest_fst_eq_minimum]
    · intro j hj hjf
      rw [← twoSmallest_fst_eq_minimum]
      exact firstMinIdx_least _ j (hassign ▸ hjf) hj
  · intro h2
    rcases hm : M.map (fun m => dist m i) with _ | ⟨c1, _ | ⟨c2, t⟩⟩
    · exact absurd hm hcosts
    · exfalso
      have := congrArg List.length hm
      simp at this
      omega
    · have hsndlt : (twoSmallest (M.map fun m => dist m i)).2 < ⊤ := by
        rw [hm, twoSmallest_snd_cons]
        refine lt_of_le_of_lt (min_le_left _ _) ?_
        rw [twoSmallest_fst_cons]
        refine max_lt (WithTop.coe_lt_top c1) ?_
        exact lt_of_le_of_lt (min_le_left _ _) (WithTop.coe_lt_top c2)
      constructor
      · rw [hbest]
        exact ne_top_of_le_ne_top (ne_top_of_lt hsndlt) (twoSmallest_fst_le_snd _)
      · rw [hsecond]
        exact ne_top_of_lt hsndlt

theorem calc_best_distances_swap_spec_witness :
    (([2, 1] : List Nat) ≠ [])
    ∧ ((calc_best_distances_swap (fun m _ => (m : ℚ)) [2, 1] 0).best
          = (([2, 1] : List Nat).map fun m => ((m : ℚ))).minimum
      ∧ (calc_best_distances_swap (fun m _ => (m : ℚ)) [2, 1] 0).second
          = secondSmallest (([2, 1] : List Nat).map fun m => ((m : ℚ)))
      ∧ (calc_best_distances_swap (fun m _ => (m : ℚ)) [2, 1] 0).best
          ≤ (calc_best_distances_swap (fun m _ => (m : ℚ)) [2, 1] 0).second
      ∧ (∃ hlt : (calc_best_distances_swap (fun m _ => (m : ℚ)) [2, 1] 0).assignment
            < (([2, 1] : List Nat).map fun m => ((m : ℚ))).length,
          (((([2, 1] : List Nat).map fun m => ((m : ℚ))).get
              ⟨(calc_best_distances_swap (fun m _ => (m : ℚ)) [2, 1] 0).assignment,
                hlt⟩ : ℚ) : WithTop ℚ)
            = (([2, 1] : List Nat).map fun m => ((m : ℚ))).minimum
          ∧ ∀ j (hj : j < (([2, 1] : List Nat).map fun m => ((m : ℚ))).length),
              j < (calc_best_distances_swap (fun m _ => (m : ℚ)) [2, 1] 0).assignment →
              (([2, 1] : List Nat).map fun m => ((m : ℚ))).minimum
                < (((([2, 1] : List Nat).map fun m => ((m : ℚ))).get ⟨j, hj⟩ : ℚ) : WithTop ℚ))
      ∧ (2 ≤ ([2, 1] : List Nat).length →
          (calc_best_distances_swap (fun m _ => (m : ℚ)) [2, 1] 0).best ≠ ⊤
          ∧ (calc_best_distances_swap (fun m _ => (m : ℚ)) [2, 1] 0).second ≠ ⊤)) :=
  ⟨by decide, calc_best_distances_swap_spec (fun m _ => (m : ℚ)) [2, 1] 0 (by decide)⟩

end CalcBest

/-! ## km::KMedoids::build_sigma, swap_sigma and calc_loss. The reference
sample drawn once by arma::randperm before each parallel loop is modelled as
the list refs, shared by every arm of that loop; arma::stddev is modelled by
sampleStddev; the output vector and matrix are modelled as functions updated
slot by slot. -/

/-- Pointwise update of a vector modelled as a function. -/
def upd1 {β : Type*} (f : Nat → β) (i : Nat) (v : β) : Nat → β :=
  fun i' => if i' = i then v else f i'

/-- Pointwise update of a matrix modelled as a curried function. -/
def upd2 {β : Type*} (f : Nat → Nat → β) (k n : Nat) (v : β) : Nat → Nat → β :=
  fun k' n' => if k' = k ∧ n' = n then v else f k' n'

section Sigma

variable {α : Type*} [LinearOrderedField α]

/-- One arm's reward samples in km::KMedoids::build_sigma: for reference point
j, the raw cost when use_absolute holds, and otherwise the cost clipped by
the old best distance, minus the old best distance. -/
def buildSample (dist : Nat → Nat → α) (refs : List Nat) (bd : Nat → α)
    (use_absolute : Bool) (i : Nat) : List α :=
  refs.map fun j =>
    if use_absolute then dist i j
    else (if dist i j < bd j then dist i j else bd j) - bd j

/-- Model of km::KMedoids::build_sigma: for every candidate i in [0, N), write
the dispersion std of that candidate's reward samples into slot i of sigma;
the single reference sample refs is shared by all candidates. -/
def build_sigma (std : List α → α) (dist : Nat → Nat → α) (N : Nat)
    (refs : List Nat) (bd : Nat → α) (use_absolute : Bool)
    (sigma0 : Nat → α) : Nat → α :=
  (List.range N).foldl
    (fun sigma i => upd1 sigma i (std (buildSample dist refs bd use_absolute i)))
    sigma0

/-- One arm's reward samples in km::KMedoids::swap_sigma for the swap that
puts candidate point n into medoid position k: for reference point j, the
candidate cost clipped by the second-best distance when j is assigned to
position k and by the best distance otherwise, minus the old best distance. -/
def swapSample (dist : Nat → Nat → α) (refs : List Nat) (bd sd : Nat → α)
    (assign : Nat → Nat) (n k : Nat) : List α :=
  refs.map fun j =>
    (if k = assign j
      then (if dist n j < sd j then dist n j else sd j)
      else (if dist n j < bd j then dist n j else bd j)) - bd j

/-- Model of km::KMedoids::swap_sigma: for every flat arm index i in
[0, K * N), decompose i as candidate point n = i / K and medoid position
k = i % K, and write the dispersion std of that arm's reward samples into
entry (k, n) of sigma; the single reference sample refs is shared by all
arms. -/
def swap_sigma (std : List α → α) (dist : Nat → Nat → α) (K N : Nat)
    (refs : List Nat) (bd sd : Nat → α) (assign : Nat → Nat)
    (sigma0 : Nat → Nat → α) : Nat → Nat → α :=
  (List.range (K * N)).foldl
    (fun sigma i =>
      upd2 sigma (i % K) (i / K)
        (std (swapSample dist refs bd sd assign (i / K) (i % K))))
    sigma0

/-- Model of km::KMedoids::calc_loss: for every point i in [0, N), the running
cost starts at infinity and is lowered over the first n_medoids entries of
the medoid index vector; the total starts at 0 and accumulates the per-point
costs. -/
def calc_loss (dist : Nat → Nat → α) (n_medoids : Nat) (M : List Nat)
    (N : Nat) : WithTop α :=
  (List.range N).foldl
    (fun total i =>
      total + (List.range n_medoids).foldl
        (fun cost k =>
          if ((dist (M.getD k 0) i : α) : WithTop α) < cost
            then ((dist (M.getD k 0) i : α) : WithTop α) else cost)
        ⊤)
    0

end Sigma

/-- Model of arma::stddev with its default normalisation: the square root of
the sum of squared deviations from the mean, divided by (length - 1). -/
noncomputable def sampleStddev (l : List ℝ) : ℝ :=
  Real.sqrt ((l.map fun x => (x - l.sum / l.length) ^ 2).sum / (l.length - 1))

theorem foldl_upd1_eq_of_not_mem {β : Type*} (g : Nat → β) :
    ∀ (l : List Nat) (sig : Nat → β) (i : Nat), i ∉ l →
      (l.foldl (fun s i' => upd1 s i' (g i')) sig) i = sig i := by
  intro l
  induction l with
  | nil => intro sig i _; rfl
  | cons a l ih =>
    intro sig i hi
    rw [List.foldl_cons, ih _ i (fun h => hi (List.mem_cons_of_mem a h))]
    exact if_neg fun h => hi (by rw [h]; exact List.mem_cons_self a l)

theorem foldl_upd1_eq_of_mem {β : Type*} (g : Nat → β) :
    ∀ (l : List Nat) (sig : Nat → β) (i : Nat), i ∈ l → l.Nodup →
      (l.foldl (fun s i' => upd1 s i' (g i')) sig) i = g i := by
  intro l
  induction l with
  | nil => intro _ i h; exact absurd h (List.not_mem_nil i)
  | cons a l ih =>
    intro sig i hmem hnd
    rcases List.mem_cons.mp hmem with rfl | hmem'
    · rw [List.foldl_cons,
        foldl_upd1_eq_of_not_mem g l _ i (List.nodup_cons.mp hnd).1]
      exact if_pos rfl
    · rw [List.foldl_cons]
      exact ih _ i hmem' (List.nodup_cons.mp hnd).2

theorem foldl_upd2_eq_of_not_mem {β : Type*} (g : Nat → β) (K : Nat) :
    ∀ (l : List Nat) (sig : Nat → Nat → β) (k n : Nat),
      (∀ i ∈ l, ¬(i % K = k ∧ i / K = n)) →
      (l.foldl (fun s i => upd2 s (i % K) (i / K) (g i)) sig) k n = sig k n := by
  intro l
  induction l with
  | nil => intros; rfl
  | cons a l ih =>
    intro sig k n h
    rw [List.foldl_cons, ih _ k n fun i hi => h i (List.mem_cons_of_mem a hi)]
    exact if_neg fun hkey =>
      h a (List.mem_cons_self a l) ⟨hkey.1.symm, hkey.2.symm⟩

theorem foldl_upd2_eq_of_mem {β : Type*} (g : Nat → β) (K : Nat) :
    ∀ (l : List Nat) (sig : Nat → Nat → β) (i0 : Nat), i0 ∈ l → l.Nodup →
      (l.foldl (fun s i => upd2 s (i % K) (i / K) (g i)) sig) (i0 % K) (i0 / K)
        = g i0 := by
  intro l
  induction l with
  | nil => intro _ i0 h; exact absurd h (List.not_mem_nil i0)
  | cons a l ih =>
    intro sig i0 hmem hnd
    rcases List.mem_cons.mp hmem with rfl | hmem'
    · rw [List.foldl_cons]
      rw [foldl_upd2_eq_of_not_mem g K l _ _ _ ?_]
      · exact if_pos ⟨rfl, rfl⟩
      · intro i hi hkey
        have hieq : i = i0 := by
          have h1 := Nat.div_add_mod i K
          have h2 := Nat.div_add_mod i0 K
          rw [hkey.1, hkey.2] at h1
          omega
        exact (List.nodup_cons.mp hnd).1 (hieq ▸ hi)
    · rw [List.foldl_cons]
      exact ih _ i0 hmem' (List.nodup_cons.mp hnd).2

/-- Bridging the source's strict-compare-and-assign idiom to min. -/
theorem if_lt_else_eq_min {γ : Type*} [LinearOrder γ] (c b : γ) :
    (if c < b then c else b) = min c b := by
  rcases lt_or_le c b with h | h
  · rw [if_pos h, min_eq_left h.le]
  · rw [if_neg (not_lt.mpr h), min_eq_right h]

/-- C5: build_sigma uses the one shared reference sample refs for every
candidate c in [0, N) and sets sigma(c) to the sample standard deviation of
that candidate's per-reference reward values: dist(c, j) when use_absolute
is true, and min(dist(c, j), d1[j]) - d1[j] when use_absolute is false. -/
theorem build_sigma_spec (dist : Nat → Nat → ℝ) (N : Nat) (refs : List Nat)
    (bd : Nat → ℝ) (use_absolute : Bool) (sigma0 : Nat → ℝ) (c : Nat)
    (hc : c < N) :
    build_sigma sampleStddev dist N refs bd use_absolute sigma0 c
      = sampleStddev (refs.map fun j =>
          if use_absolute then dist c j else min (dist c j) (bd j) - bd j) := by
  unfold build_sigma
  rw [foldl_upd1_eq_of_mem
    (fun i => sampleStddev (buildSample dist refs bd use_absolute i))
    (List.range N) sigma0 c (List.mem_range.mpr hc) (List.nodup_range N)]
  unfold buildSample
  refine congrArg sampleStddev (List.map_congr_left fun j _ => ?_)
  by_cases hua : use_absolute <;> simp [hua, if_lt_else_eq_min]

theorem build_sigma_spec_witness :
    0 < 1
    ∧ build_sigma sampleStddev (fun _ _ => (0 : ℝ)) 1 [0] (fun _ => (0 : ℝ))
        true (fun _ => (0 : ℝ)) 0
      = sampleStddev (([0] : List Nat).map fun _ =>
          if true then (0 : ℝ) else min (0 : ℝ) 0 - 0) :=
  ⟨by decide,
    build_sigma_spec (fun _ _ => (0 : ℝ)) 1 [0] (fun _ => (0 : ℝ)) true
      (fun _ => (0 : ℝ)) 0 (by decide)⟩

/-- C4: for every flat arm index i in [0, K * N), swap_sigma decomposes i as
candidate point n = i / K and medoid position k = i % K, and entry (k, n) of
sigma is the sample standard deviation of the per-reference reward values
(min(dist(n, j), d2[j]) when assignments[j] = k, else min(dist(n, j), d1[j]))
minus d1[j]. -/
theorem swap_sigma_spec (dist : Nat → Nat → ℝ) (K N : Nat) (refs : List Nat)
    (bd sd : Nat → ℝ) (assign : Nat → Nat) (sigma0 : Nat → Nat → ℝ)
    (i : Nat) (hi : i < K * N) :
    swap_sigma sampleStddev dist K N refs bd sd assign sigma0 (i % K) (i / K)
      = sampleStddev (refs.map fun j =>
          (if i % K = assign j
            then min (dist (i / K) j) (sd j)
            else min (dist (i / K) j) (bd j)) - bd j) := by
  unfold swap_sigma
  rw [foldl_upd2_eq_of_mem
    (fun i' => sampleStddev (swapSample dist refs bd sd assign (i' / K) (i' % K)))
    K (List.range (K * N)) sigma0 i (List.mem_range.mpr hi) (List.nodup_range _)]
  unfold swapSample
  refine congrArg sampleStddev (List.map_congr_left fun j _ => ?_)
  by_cases h : i % K = assign j <;> simp [h, if_lt_else_eq_min]

theorem swap_sigma_spec_witness :
    0 < 1 * 1
    ∧ swap_sigma sampleStddev (fun _ _ => (0 : ℝ)) 1 1 [0] (fun _ => (0 : ℝ))
        (fun _ => (0 : ℝ)) (fun _ => 0) (fun _ _ => (0 : ℝ)) (0 % 1) (0 / 1)
      = sampleStddev (([0] : List Nat).map fun _ =>
          (if 0 % 1 = 0 then min (0 : ℝ) 0 else min (0 : ℝ) 0) - 0) :=
  ⟨by decide,
    swap_sigma_spec (fun _ _ => (0 : ℝ)) 1 1 [0] (fun _ => (0 : ℝ))
      (fun _ => (0 : ℝ)) (fun _ => 0) (fun _ _ => (0 : ℝ)) 0 (by decide)⟩

section CalcLoss

variable {α : Type*} [LinearOrderedField α]

theorem foldl_add_range {β : Type*} [AddCommMonoid β] (g : Nat → β) (N : Nat) :
    (List.range N).foldl (fun t i => t + g i) 0 = ∑ i ∈ Finset.range N, g i := by
  induction N with
  | zero => rfl
  | succ n ih =>
    rw [List.range_succ, List.foldl_append, ih, List.foldl_cons, List.foldl_nil,
      Finset.sum_range_succ]

theorem calc_loss_inner (dist : Nat → Nat → α) (i : Nat) :
    ∀ (M : List Nat) (a : WithTop α),
      (List.range M.length).foldl
        (fun cost k =>
          if ((dist (M.getD k 0) i : α) : WithTop α) < cost
            then ((dist (M.getD k 0) i : α) : WithTop α) else cost) a
      = min a ((M.map fun m => dist m i).minimum) := by
  intro M
  induction M with
  | nil =>
    intro a
    simp only [List.length_nil, List.range_zero, List.foldl_nil, List.map_nil,
      List.minimum_nil]
    exact (min_eq_left le_top).symm
  | cons m M ih =>
    intro a
    rw [List.length_cons, List.range_succ_eq_map, List.foldl_cons, List.foldl_map]
    simp only [List.getD_cons_succ, List.getD_cons_zero]
    rw [ih, List.map_cons, List.minimum_cons, if_lt_else_eq_min]
    rw [min_assoc, min_left_comm]

/-- C6: calc_loss over a medoid index vector of length n_medoids equals the
sum over all points i of the minimum over the medoids m of dist(m, i). -/
theorem calc_loss_spec (dist : Nat → Nat → α) (n_medoids : Nat) (M : List Nat)
    (N : Nat) (hM : M.length = n_medoids) :
    calc_loss dist n_medoids M N
      = ∑ i ∈ Finset.range N, (M.map fun m => dist m i).minimum := by
  subst hM
  unfold calc_loss
  rw [foldl_add_range]
  refine Finset.sum_congr rfl fun i _ => ?_
  rw [calc_loss_inner dist i M ⊤]
  exact min_eq_right le_top

theorem calc_loss_spec_witness :
    ([0] : List Nat).length = 1
    ∧ calc_loss (fun m j => ((m + j : Nat) : ℚ)) 1 [0] 1
      = ∑ i ∈ Finset.range 1,
          (([0] : List Nat).map fun m => ((m + i : Nat) : ℚ)).minimum :=
  ⟨rfl, calc_loss_spec (fun m j => ((m + j : Nat) : ℚ)) 1 [0] 1 rfl⟩

end CalcLoss

end km
